import Mathlib

/-!
Verification development for the `seo-crawler` repository.

The development shallowly embeds the two algorithmic cores of the repository:

* the keyword/term scoring engine of `src/keyword_research.py`
  (`analyze_keyword_frequency`, `calculate_keyword_opportunity_score`,
  `cluster_related_keywords`), and
* the crawl traversal loop `crawl_site` of `src/seo_crawler.py`
  (`src/main.py` contains a near-identical copy whose extra fields — MIME
  type, crawl time and raw-HTML capture — do not touch any modelled field).

Python floats are idealised as exact rationals (`ℚ`); Python's builtin
`round` (banker's rounding) is modelled by exact round-half-to-even on `ℚ`.
External collaborators (HTTP transport, the BeautifulSoup DOM, `urljoin`)
are modelled as oracles supplied through a `World` structure, exactly at the
interface boundary that section 6 of the specification declares out of
scope.  The crawl loop is embedded as a small-step function `step` on an
explicit `CrawlState`; `crawlLoop` iterates it, and the `Reachable`
predicate ranges over every intermediate state of one `crawl_site` run so
that "at every point during a crawl" claims can be stated.  The state
carries two observation logs (`fetchLog` for `session.get` calls,
`robotsLog` for robots.txt reads) recording the network side effects.
-/

namespace Seo

/-! ### Rounding: Python's `round(x, n)` on exact rationals -/

/-- Round-half-to-even to the nearest integer, the rounding mode of Python's
builtin `round`. -/
def roundHalfEven (x : ℚ) : ℤ :=
  if x - ⌊x⌋ < 1/2 then ⌊x⌋
  else if 1/2 < x - ⌊x⌋ then ⌊x⌋ + 1
  else if ⌊x⌋ % 2 = 0 then ⌊x⌋ else ⌊x⌋ + 1

/-- Python `round(x, 1)`. -/
def round1 (x : ℚ) : ℚ := (roundHalfEven (x * 10) : ℚ) / 10

/-- Python `round(x, 2)`. -/
def round2 (x : ℚ) : ℚ := (roundHalfEven (x * 100) : ℚ) / 100

/-- Python `round(x, 3)`. -/
def round3 (x : ℚ) : ℚ := (roundHalfEven (x * 1000) : ℚ) / 1000

/-! ### Python string helpers shared by the embedded modules -/

/-- Python `str.split()` with no argument: split on runs of whitespace,
discarding empty pieces.  Implemented over the character list of the
string. -/
def pySplitWhitespace (s : String) : List String :=
  ((s.data.splitOnP Char.isWhitespace).map (fun l => (⟨l⟩ : String))).filter (· ≠ "")

/-- Python `str.strip()` on a character list: drop leading and trailing
whitespace. -/
def pyStripChars (l : List Char) : List Char :=
  ((l.dropWhile Char.isWhitespace).reverse.dropWhile Char.isWhitespace).reverse

/-! ### `keyword_research.calculate_keyword_opportunity_score` -/

/-- Word count of a keyword, `len(keyword.split())` in
`calculate_keyword_opportunity_score`. -/
def wordCountOf (keyword : String) : ℕ := (pySplitWhitespace keyword).length

/-- Frequency component of the opportunity score:
`min(100, (frequency / total_keywords * 100) * 2) if total_keywords > 0 else 0`. -/
def oppFrequencyScore (frequency total_keywords : ℕ) : ℚ :=
  if 0 < total_keywords then min 100 ((frequency : ℚ) / total_keywords * 100 * 2) else 0

/-- Length component of the opportunity score:
`min(100, word_count * 15)`. -/
def oppLengthScore (keyword : String) : ℚ := min 100 ((wordCountOf keyword : ℚ) * 15)

/-- Ranking penalty of the opportunity score: `current_rankings * 20`. -/
def oppRankingPenalty (current_rankings : ℕ) : ℚ := (current_rankings : ℚ) * 20

/-- The clamped opportunity score before the final 1-decimal rounding:
`max(0, min(100, frequency_score * 0.4 + length_score * 0.4 -
ranking_penalty * 0.2))`. -/
def oppRawScore (keyword : String) (frequency total_keywords current_rankings : ℕ) : ℚ :=
  max 0 (min 100 (oppFrequencyScore frequency total_keywords * (0.4 : ℚ) +
    oppLengthScore keyword * (0.4 : ℚ) - oppRankingPenalty current_rankings * (0.2 : ℚ)))

/-- The dictionary returned by `calculate_keyword_opportunity_score`. -/
structure OppScore where
  keyword : String
  opportunity_score : ℚ
  frequency_component : ℚ
  length_component : ℚ
  rank_penalty : ℚ
  priority : String
deriving DecidableEq

/-- Embedding of `keyword_research.calculate_keyword_opportunity_score`.
The `priority` entry is computed from the unrounded clamped score, the
`opportunity_score` entry is that score rounded to 1 decimal, exactly as in
the source. -/
def calculate_keyword_opportunity_score (keyword : String)
    (frequency total_keywords current_rankings : ℕ) : OppScore :=
  { keyword := keyword
    opportunity_score := round1 (oppRawScore keyword frequency total_keywords current_rankings)
    frequency_component := round1 (oppFrequencyScore frequency total_keywords)
    length_component := round1 (oppLengthScore keyword)
    rank_penalty := oppRankingPenalty current_rankings
    priority :=
      if 70 ≤ oppRawScore keyword frequency total_keywords current_rankings then "High"
      else if 40 ≤ oppRawScore keyword frequency total_keywords current_rankings then "Medium"
      else "Low" }

/-! ### `keyword_research.analyze_keyword_frequency` -/

/-- Distinct elements of a list in first-occurrence order — the key order of
a Python `collections.Counter` built by iterating the list. -/
def firstOccs : List String → List String
  | [] => []
  | k :: rest => k :: (firstOccs rest).filter (fun x => x != k)

/-- Items `(key, count)` of `Counter(keywords)` in insertion order. -/
def counterItems (keywords : List String) : List (String × ℕ) :=
  (firstOccs keywords).map (fun k => (k, keywords.count k))

/-- Behaviour of `Counter.most_common`: items sorted by descending count,
ties kept in insertion order (a stable descending sort). -/
def mostCommon (items : List (String × ℕ)) : List (String × ℕ) :=
  List.insertionSort (fun a b => b.2 ≤ a.2) items

/-- One row of the frequency table built by `analyze_keyword_frequency`. -/
structure FreqRow where
  keyword : String
  frequency : ℕ
  percentage : ℚ
deriving DecidableEq

/-- Embedding of `keyword_research.analyze_keyword_frequency`: empty table
on an empty keyword list, otherwise the `top_n` most common keywords with
their counts and `round(count / total * 100, 2)` percentages. -/
def analyze_keyword_frequency (keywords : List String) (top_n : ℕ) : List FreqRow :=
  if keywords = [] then []
  else
    ((mostCommon (counterItems keywords)).take top_n).map (fun kc =>
      { keyword := kc.1
        frequency := kc.2
        percentage := round2 ((kc.2 : ℚ) / keywords.length * 100) })

/-! ### `keyword_research.cluster_related_keywords` -/

/-- Python `set(s)` for a string: its distinct characters. -/
def charSet (s : String) : List Char := s.data.dedup

/-- Jaccard similarity of the character sets of two strings:
`len(chars_key & chars_other) / len(chars_key | chars_other)`. -/
def jaccardSim (a b : String) : ℚ :=
  (((charSet a).filter (fun c => c ∈ charSet b)).length : ℚ) /
    (((a.data ++ b.data).dedup).length : ℚ)

/-- Inner `for other in keywords` scan of `cluster_related_keywords`:
appends to `cluster` and marks `used` every not-yet-used keyword distinct
from the leader whose character-set Jaccard similarity with the leader
reaches the threshold (both character sets must be non-empty). -/
def gatherCluster (τ : ℚ) (keyword : String) :
    List String → List String → List String → List String × List String
  | [], cluster, used => (cluster, used)
  | other :: rest, cluster, used =>
    if other ∉ used ∧ other ≠ keyword ∧ charSet keyword ≠ [] ∧ charSet other ≠ [] ∧
        τ ≤ jaccardSim keyword other then
      gatherCluster τ keyword rest (cluster ++ [other]) (used ++ [other])
    else
      gatherCluster τ keyword rest cluster used

/-- Outer `for keyword in sorted(keywords)` loop of
`cluster_related_keywords`: each unused keyword becomes a leader, gathers a
cluster, and the cluster is emitted only when it has more than one member. -/
def clusterOuter (keywords : List String) (τ : ℚ) :
    List String → List String → List (String × List String)
  | [], _ => []
  | k :: rest, used =>
    if k ∈ used then clusterOuter keywords τ rest used
    else
      if 1 < (gatherCluster τ k keywords [k] (used ++ [k])).1.length then
        (k, (gatherCluster τ k keywords [k] (used ++ [k])).1) ::
          clusterOuter keywords τ rest (gatherCluster τ k keywords [k] (used ++ [k])).2
      else clusterOuter keywords τ rest (gatherCluster τ k keywords [k] (used ++ [k])).2

/-- Embedding of `keyword_research.cluster_related_keywords`, returning the
cluster map as an association list in leader-insertion order. -/
def cluster_related_keywords (keywords : List String) (τ : ℚ) :
    List (String × List String) :=
  if keywords = [] then []
  else clusterOuter keywords τ (List.insertionSort (· ≤ ·) keywords) []

/-! ### URL helpers: the fragments of `urllib.parse` the crawler uses

Only the `scheme` and `netloc` components of `urlparse` feed crawler
decisions (`parsed.netloc == seed_domain`, `p.scheme in ("http", "https")`,
and the robots.txt URL `{scheme}://{netloc}/robots.txt`), so only those are
modelled, following RFC-style generic URI syntax as `urllib.parse` does. -/

/-- Characters legal in a URL scheme after the initial letter. -/
def isSchemeChar (c : Char) : Bool := c.isAlphanum || c = '+' || c = '-' || c = '.'

/-- Split a URL character list into scheme (lowercased) and remainder, when
a valid `scheme:` head is present, as `urllib.parse.urlparse` does. -/
def splitScheme (l : List Char) : Option (List Char × List Char) :=
  if (l.takeWhile (fun c => c != ':')).length < l.length ∧
      l.takeWhile (fun c => c != ':') ≠ [] ∧
      (l.takeWhile (fun c => c != ':')).headI.isAlpha = true ∧
      (l.takeWhile (fun c => c != ':')).all isSchemeChar = true then
    some ((l.takeWhile (fun c => c != ':')).map Char.toLower,
      l.drop ((l.takeWhile (fun c => c != ':')).length + 1))
  else none

/-- Scheme component of `urlparse(u)`; empty when no valid scheme head. -/
def schemeOf (u : String) : String :=
  match splitScheme u.data with
  | some (s, _) => ⟨s⟩
  | none => ""

/-- URL remainder after stripping the `scheme:` head, if any. -/
def restAfterScheme (u : String) : List Char :=
  match splitScheme u.data with
  | some (_, r) => r
  | none => u.data

/-- Netloc component of `urlparse(u)`: present only after `//`, extending to
the next `/`, `?` or `#`. -/
def netlocOf (u : String) : String :=
  match restAfterScheme u with
  | '/' :: '/' :: rest => ⟨rest.takeWhile (fun c => c != '/' && c != '?' && c != '#')⟩
  | _ => ""

/-- Python `s.rstrip('/')`: drop trailing slashes. -/
def rstripSlash (s : String) : String :=
  ⟨(s.data.reverse.dropWhile (fun c => c == '/')).reverse⟩

/-- Robots.txt URL of a URL's origin, as computed by `allowed_by_robots` via
`load_robots_for_domain`: `f"{scheme}://{netloc}".rstrip('/') + "/robots.txt"`. -/
def robotsUrlOf (url : String) : String :=
  rstripSlash (schemeOf url ++ "://" ++ netlocOf url) ++ "/robots.txt"

/-- Embedding of `seo_crawler.normalize_url`: `u.split('#')[0].strip()`,
with the empty string returned unchanged. -/
def normalize_url (u : String) : String :=
  if u = "" then u else ⟨pyStripChars (u.data.takeWhile (fun c => c != '#'))⟩

/-! ### The crawl loop `seo_crawler.crawl_site` -/

/-- Parse result of a fetched page, restricted to the fields that feed the
crawler's control flow and the modelled record fields: the raw `href`
values of its anchors (`soup.find_all("a", href=True)`) and the visible
word count.  The remaining DOM extractions (title, description, headings,
JSON-LD schema, content type) are produced by the out-of-scope DOM
collaborator and touch no claim. -/
structure Doc where
  anchors : List String
  wordCount : ℕ
deriving DecidableEq

/-- Outcome of `session.get(url)`: a raised exception, or a response with a
status code and (for parsed pages) a document. -/
inductive FetchResult where
  | exn (msg : String)
  | resp (status : ℕ) (doc : Doc)
deriving DecidableEq

/-- The out-of-scope collaborators of the crawl loop (specification §6):
the robots gate verdict for a URL (`rp.can_fetch("*", url)` with its
fail-open wrappers folded in), the HTTP fetch capability, and
`urllib.parse.urljoin`. -/
structure World where
  robotsAllows : String → Bool
  fetch : String → FetchResult
  join : String → String → String

/-- Status column of a result row: an HTTP status code or the literal
string `"Error"` recorded on a fetch exception. -/
inductive StatusVal where
  | code (n : ℕ)
  | error
deriving DecidableEq

/-- One result row appended by `crawl_site`, restricted to the fields the
claims touch; the omitted columns (title, description, headings, schema,
content type) are filled from the out-of-scope DOM collaborator and default
to empty on error rows. -/
structure Row where
  url : String
  status : StatusVal
  crawlStatus : String
  wordCount : ℕ
  internalLinks : ℕ
  externalLinks : ℕ
  linkToWordRatio : ℚ
deriving DecidableEq

/-- Crawl parameters: the page cap, the `ignore_robots` flag, and the seed's
network location (`urlparse(seed_url).netloc`). -/
structure Config where
  maxPages : ℕ
  ignoreRobots : Bool
  seedDomain : String
deriving DecidableEq

/-- Mutable state of the `while` loop of `crawl_site` (`to_visit`,
`visited`, `results`), plus two observation logs for the network side
effects: the URLs passed to `session.get` and the robots.txt URLs read by
`allowed_by_robots`.  `visited` is the insertion-ordered list of the
visited set's elements. -/
structure CrawlState where
  toVisit : List String
  visited : List String
  rows : List Row
  fetchLog : List String
  robotsLog : List String
deriving DecidableEq

/-- Value returned by `crawl_site`: the result rows and the metadata
dictionary (`blocked` flag and, when blocked, the robots.txt URL). -/
structure CrawlResult where
  rows : List Row
  blocked : Bool
  robotsUrl : Option String
deriving DecidableEq

/-- Row recorded when `session.get` raises (`except Exception as e`). -/
def errorRow (url msg : String) : Row :=
  { url := url, status := .error, crawlStatus := "Error: " ++ msg, wordCount := 0,
    internalLinks := 0, externalLinks := 0, linkToWordRatio := 0 }

/-- Row recorded on an HTTP status ≥ 400 (no parsing attempted). -/
def httpErrorRow (url : String) (status : ℕ) : Row :=
  { url := url, status := .code status, crawlStatus := "HTTP Error", wordCount := 0,
    internalLinks := 0, externalLinks := 0, linkToWordRatio := 0 }

/-- Link-classification loop of `crawl_site`: for each raw anchor href,
resolve against the page URL (`urljoin`), strip fragment and whitespace
(`normalize_url`), drop empty results, and split into internal links
(netloc equal to the seed domain) and external links, preserving order. -/
def classifyLinks (join : String → String → String) (url seedDomain : String) :
    List String → List String × List String
  | [] => ([], [])
  | raw :: rest =>
    if normalize_url (join url raw) = "" then classifyLinks join url seedDomain rest
    else if netlocOf (normalize_url (join url raw)) = seedDomain then
      (normalize_url (join url raw) :: (classifyLinks join url seedDomain rest).1,
        (classifyLinks join url seedDomain rest).2)
    else
      ((classifyLinks join url seedDomain rest).1,
        normalize_url (join url raw) :: (classifyLinks join url seedDomain rest).2)

/-- Row recorded for a successfully parsed page: deduplicated internal and
external link counts (`len(set(...))`), and the link-to-word ratio computed
from the pre-deduplication totals
(`round(total_links / word_count, 3) if word_count else 0`). -/
def successRow (url : String) (status : ℕ) (doc : Doc)
    (internal external : List String) : Row :=
  { url := url, status := .code status, crawlStatus := "Success",
    wordCount := doc.wordCount,
    internalLinks := internal.dedup.length,
    externalLinks := external.dedup.length,
    linkToWordRatio :=
      if doc.wordCount = 0 then 0
      else round3 (((internal.length + external.length : ℕ) : ℚ) / (doc.wordCount : ℚ)) }

/-- Enqueueing loop of `crawl_site`: append each internal link that is in
neither the visited set nor the queue and whose scheme is http or https,
checking against the queue as it grows. -/
def enqueueLinks (visited : List String) : List String → List String → List String
  | toVisit, [] => toVisit
  | toVisit, link :: rest =>
    if link ∉ visited ∧ link ∉ toVisit ∧ (schemeOf link = "http" ∨ schemeOf link = "https") then
      enqueueLinks visited (toVisit ++ [link]) rest
    else enqueueLinks visited toVisit rest

/-- Body of one loop iteration after the robots gate has allowed `url`:
fetch it, record exactly one row (error / HTTP-error / success), extend the
queue with newly discovered internal links on success, and add `url` to the
visited set.  The `session.get` call is logged in all three outcomes. -/
def processUrl (w : World) (cfg : Config) (s : CrawlState) (url : String)
    (rest : List String) : CrawlState :=
  match w.fetch url with
  | .exn msg =>
    { s with
      toVisit := rest
      visited := s.visited ++ [url]
      rows := s.rows ++ [errorRow url msg]
      fetchLog := s.fetchLog ++ [url] }
  | .resp status doc =>
    if 400 ≤ status then
      { s with
        toVisit := rest
        visited := s.visited ++ [url]
        rows := s.rows ++ [httpErrorRow url status]
        fetchLog := s.fetchLog ++ [url] }
    else
      { s with
        toVisit := enqueueLinks s.visited rest
          (classifyLinks w.join url cfg.seedDomain doc.anchors).1,
        visited := s.visited ++ [url],
        rows := s.rows ++ [successRow url status doc
          (classifyLinks w.join url cfg.seedDomain doc.anchors).1
          (classifyLinks w.join url cfg.seedDomain doc.anchors).2],
        fetchLog := s.fetchLog ++ [url] }

/-- Result returned when the loop exits normally (queue empty or page cap
reached): the accumulated rows with `blocked=False`. -/
def finishResult (s : CrawlState) : CrawlResult :=
  { rows := s.rows, blocked := false, robotsUrl := none }

/-- Outcome of one iteration of the `while` loop: the crawl returns, the
popped URL is skipped, or the popped URL is processed. -/
inductive Step where
  | done (res : CrawlResult)
  | skip (s : CrawlState)
  | proc (s : CrawlState)
deriving DecidableEq

/-- One iteration of the `while to_visit and len(visited) < max_pages` loop
of `crawl_site`: pop the queue front, normalize it, skip empty or
already-visited URLs, consult the robots gate (logging the robots.txt read
unless `ignore_robots` is set), and on a robots block return immediately
with an empty table, `blocked=True` and the blocking robots.txt URL. -/
def step (w : World) (cfg : Config) (s : CrawlState) : Step :=
  if s.visited.length < cfg.maxPages then
    match s.toVisit with
    | [] => .done (finishResult s)
    | url0 :: rest =>
      if normalize_url url0 = "" then .skip { s with toVisit := rest }
      else if normalize_url url0 ∈ s.visited then .skip { s with toVisit := rest }
      else if cfg.ignoreRobots then .proc (processUrl w cfg s (normalize_url url0) rest)
      else if w.robotsAllows (normalize_url url0) then
        .proc (processUrl w cfg
          { s with robotsLog := s.robotsLog ++ [robotsUrlOf (normalize_url url0)] }
          (normalize_url url0) rest)
      else .done { rows := [], blocked := true, robotsUrl := some (robotsUrlOf (normalize_url url0)) }
  else .done (finishResult s)

/-- Iterate `step` until the loop returns.  Termination: every iteration
either grows the visited set (bounded by the page cap) or shrinks the
queue. -/
def crawlLoop (w : World) (cfg : Config) (s : CrawlState) : CrawlResult :=
  match h : step w cfg s with
  | .done res => res
  | .skip s' => crawlLoop w cfg s'
  | .proc s' => crawlLoop w cfg s'
termination_by (cfg.maxPages - s.visited.length, s.toVisit.length)
decreasing_by
  · have hx : s'.visited = s.visited ∧ s'.toVisit.length < s.toVisit.length := by
      unfold step at h
      split at h
      · split at h
        · simp at h
        · split at h
          · injection h with h'
            subst h'
            simp_all
          · split at h
            · injection h with h'
              subst h'
              simp_all
            · split at h
              · simp at h
              · split at h
                · simp at h
                · simp at h
      · simp at h
    rw [hx.1]
    exact Prod.Lex.right _ hx.2
  · have hv : ∀ (s₀ : CrawlState) (url : String) (rest : List String),
        (processUrl w cfg s₀ url rest).visited = s₀.visited ++ [url] := by
      intro s₀ url rest
      unfold processUrl
      split
      · rfl
      · split <;> rfl
    have hx : s'.visited.length = s.visited.length + 1 ∧ s.visited.length < cfg.maxPages := by
      unfold step at h
      split at h
      · split at h
        · simp at h
        · split at h
          · simp at h
          · split at h
            · simp at h
            · split at h
              · injection h with h'
                subst h'
                simp_all [hv]
              · split at h
                · injection h with h'
                  subst h'
                  simp_all [hv]
                · simp at h
      · simp at h
    exact Prod.Lex.left _ _ (by omega)

/-- Derived crawl configuration: `seed_domain = urlparse(seed_url).netloc`
after `seed_url = seed_url.rstrip('/')`. -/
def mkConfig (seed : String) (maxPages : ℕ) (ignoreRobots : Bool) : Config :=
  { maxPages := maxPages, ignoreRobots := ignoreRobots,
    seedDomain := netlocOf (rstripSlash seed) }

/-- Initial loop state of `crawl_site`: `to_visit = [seed_url]` (with
trailing slashes stripped), everything else empty. -/
def initState (seed : String) : CrawlState :=
  { toVisit := [rstripSlash seed], visited := [], rows := [], fetchLog := [], robotsLog := [] }

/-- States reached during one `crawl_site` run from a start state: the
reflexive-transitive closure of non-returning `step` outcomes. -/
inductive Reachable (w : World) (cfg : Config) (s₀ : CrawlState) : CrawlState → Prop
  | refl : Reachable w cfg s₀ s₀
  | skip {s s' : CrawlState} :
      Reachable w cfg s₀ s → step w cfg s = .skip s' → Reachable w cfg s₀ s'
  | proc {s s' : CrawlState} :
      Reachable w cfg s₀ s → step w cfg s = .proc s' → Reachable w cfg s₀ s'

/-- Embedding of `seo_crawler.crawl_site`, parameterised by the external
collaborators. -/
def crawl_site (w : World) (seed : String) (maxPages : ℕ) (ignoreRobots : Bool) : CrawlResult :=
  crawlLoop w (mkConfig seed maxPages ignoreRobots) (initState seed)

/-- Link-to-word-ratio formula as worded by the specification (§4.3):
"(internal+external link count, pre-dedup) / word count, 3 decimals; 0 if
word count is 0".  Stated separately from the code-derived `successRow` so
the two can be compared. -/
def specLinkToWordRatio (preDedupLinkTotal wordCount : ℕ) : ℚ :=
  if wordCount = 0 then 0
  else round3 ((preDedupLinkTotal : ℚ) / (wordCount : ℚ))

/-! ### Concrete worlds and states used by witnesses and counterexamples -/

/-- Two-page site on one origin: the seed links to one same-origin page. -/
def worldA : World :=
  { robotsAllows := fun _ => true
    fetch := fun u =>
      if u = "http://a.com" then .resp 200 { anchors := ["http://a.com/p"], wordCount := 0 }
      else .resp 200 { anchors := [], wordCount := 0 }
    join := fun _ raw => raw }

/-- Crawl configuration for `worldA` (seed `http://a.com`, cap 5, robots
respected). -/
def cfgA : Config := mkConfig "http://a.com" 5 false

/-- Result row of the seed page of `worldA`. -/
def rowA1 : Row :=
  { url := "http://a.com", status := .code 200, crawlStatus := "Success", wordCount := 0, internalLinks := 1, externalLinks := 0, linkToWordRatio := 0 }

/-- Result row of the second page of `worldA`. -/
def rowA2 : Row :=
  { url := "http://a.com/p", status := .code 200, crawlStatus := "Success", wordCount := 0, internalLinks := 0, externalLinks := 0, linkToWordRatio := 0 }

/-- State after `crawl_site` has processed the seed of `worldA`. -/
def stateA1 : CrawlState :=
  { toVisit := ["http://a.com/p"]
    visited := ["http://a.com"]
    rows := [rowA1]
    fetchLog := ["http://a.com"]
    robotsLog := ["http://a.com/robots.txt"] }

/-- State after `crawl_site` has processed both pages of `worldA`. -/
def stateA2 : CrawlState :=
  { toVisit := []
    visited := ["http://a.com", "http://a.com/p"]
    rows := [rowA1, rowA2]
    fetchLog := ["http://a.com", "http://a.com/p"]
    robotsLog := ["http://a.com/robots.txt", "http://a.com/robots.txt"] }

/-- One-page site whose seed page links to itself. -/
def worldSelf : World :=
  { robotsAllows := fun _ => true
    fetch := fun _ => .resp 200 { anchors := ["http://s.com"], wordCount := 0 }
    join := fun _ raw => raw }

/-- Crawl configuration for `worldSelf`. -/
def cfgSelf : Config := mkConfig "http://s.com" 5 false

/-- Result row of the self-linking seed page of `worldSelf`. -/
def rowSelf : Row :=
  { url := "http://s.com", status := .code 200, crawlStatus := "Success", wordCount := 0, internalLinks := 1, externalLinks := 0, linkToWordRatio := 0 }

/-- State after `crawl_site` has processed the self-linking seed of
`worldSelf`: the seed URL is in the queue and in the visited set at once. -/
def stateSelf1 : CrawlState :=
  { toVisit := ["http://s.com"]
    visited := ["http://s.com"]
    rows := [rowSelf]
    fetchLog := ["http://s.com"]
    robotsLog := ["http://s.com/robots.txt"] }

/-- Site whose robots gate blocks the URL `http://b.com/x`. -/
def worldB : World :=
  { robotsAllows := fun u => u ≠ "http://b.com/x"
    fetch := fun _ => .resp 200 { anchors := [], wordCount := 0 }
    join := fun _ raw => raw }

/-- Crawl configuration for `worldB`. -/
def cfgB : Config := mkConfig "http://b.com" 5 false

/-- Result row accumulated before the robots block in `worldB`. -/
def rowB : Row :=
  { url := "http://b.com", status := .code 200, crawlStatus := "Success", wordCount := 0, internalLinks := 1, externalLinks := 0, linkToWordRatio := 0 }

/-- Mid-crawl state of `worldB` with one accumulated result row and the
blocked URL at the queue front. -/
def stateB : CrawlState :=
  { toVisit := ["http://b.com/x"]
    visited := ["http://b.com"]
    rows := [rowB]
    fetchLog := ["http://b.com"]
    robotsLog := ["http://b.com/robots.txt"] }

/-- Document with a duplicated internal link, one external link and eight
words, for exercising the link-to-word-ratio formula. -/
def docC : Doc :=
  { anchors := ["http://c.com/1", "http://c.com/1", "http://x.org/e"], wordCount := 8 }

/-- Site whose seed page is `docC`. -/
def worldC : World :=
  { robotsAllows := fun _ => true
    fetch := fun _ => .resp 200 docC
    join := fun _ raw => raw }

/-- Crawl configuration for `worldC`. -/
def cfgC : Config := mkConfig "http://c.com" 5 false

/-! ## Theorems -/

/-! ### Rounding lemmas -/

theorem roundHalfEven_nonneg {x : ℚ} (hx : 0 ≤ x) : 0 ≤ roundHalfEven x := by
  have h0 : (0 : ℤ) ≤ ⌊x⌋ := Int.floor_nonneg.mpr hx
  unfold roundHalfEven
  split
  · exact h0
  · split
    · omega
    · split <;> omega

theorem roundHalfEven_le {x : ℚ} {n : ℤ} (hx : x ≤ (n : ℚ)) : roundHalfEven x ≤ n := by
  have hfl : ⌊x⌋ ≤ n := by
    have := Int.floor_le_floor hx
    simpa using this
  have hstep : (1 : ℚ)/2 ≤ x - ⌊x⌋ → ⌊x⌋ + 1 ≤ n := by
    intro hr
    have hlt : (⌊x⌋ : ℚ) < x := by
      have : (0 : ℚ) < x - ⌊x⌋ := lt_of_lt_of_le (by norm_num) hr
      linarith
    have hq : (⌊x⌋ : ℚ) < (n : ℚ) := lt_of_lt_of_le hlt hx
    exact Int.add_one_le_iff.mpr (by exact_mod_cast hq)
  unfold roundHalfEven
  split
  · exact hfl
  · split
    · exact hstep (le_of_lt (by assumption))
    · split
      · exact hfl
      · exact hstep (by linarith [lt_or_ge (x - ⌊x⌋) (1/2 : ℚ)])

theorem round1_nonneg {x : ℚ} (hx : 0 ≤ x) : 0 ≤ round1 x := by
  unfold round1
  have h : (0 : ℤ) ≤ roundHalfEven (x * 10) := roundHalfEven_nonneg (by positivity)
  have h' : (0 : ℚ) ≤ (roundHalfEven (x * 10) : ℚ) := by exact_mod_cast h
  linarith

theorem round1_le_100 {x : ℚ} (hx : x ≤ 100) : round1 x ≤ 100 := by
  unfold round1
  have h : roundHalfEven (x * 10) ≤ (1000 : ℤ) := roundHalfEven_le (by push_cast; linarith)
  have h' : (roundHalfEven (x * 10) : ℚ) ≤ 1000 := by exact_mod_cast h
  linarith

/-! ### C7: opportunity score range and priority tiering -/

/-- C7: for every keyword, every frequency (including frequency greater
than the keyword total), every total and every current-rankings value, the
opportunity score returned by `calculate_keyword_opportunity_score` lies in
[0, 100] (both the clamped score and its returned 1-decimal rounding), and
the priority label is "High" when the score is ≥ 70, "Medium" when it is
≥ 40 and < 70, and "Low" otherwise. -/
theorem opportunity_score_bounds_and_priority (keyword : String)
    (frequency total_keywords current_rankings : ℕ) :
    0 ≤ oppRawScore keyword frequency total_keywords current_rankings ∧
    oppRawScore keyword frequency total_keywords current_rankings ≤ 100 ∧
    0 ≤ (calculate_keyword_opportunity_score keyword frequency total_keywords
      current_rankings).opportunity_score ∧
    (calculate_keyword_opportunity_score keyword frequency total_keywords
      current_rankings).opportunity_score ≤ 100 ∧
    (calculate_keyword_opportunity_score keyword frequency total_keywords
      current_rankings).priority =
      (if 70 ≤ oppRawScore keyword frequency total_keywords current_rankings then "High"
       else if 40 ≤ oppRawScore keyword frequency total_keywords current_rankings then "Medium"
       else "Low") := by
  have h0 : 0 ≤ oppRawScore keyword frequency total_keywords current_rankings :=
    le_max_left 0 _
  have h100 : oppRawScore keyword frequency total_keywords current_rankings ≤ 100 :=
    max_le (by norm_num) (min_le_left _ _)
  exact ⟨h0, h100, round1_nonneg h0, round1_le_100 h100, rfl⟩

/-! ### Clustering lemmas (C8, C10) -/

theorem gatherCluster_spec (τ : ℚ) (k : String) :
    ∀ (ls cluster used : List String), ∃ ext : List String,
      (gatherCluster τ k ls cluster used).1 = cluster ++ ext ∧
      (gatherCluster τ k ls cluster used).2 = used ++ ext ∧
      ext.Nodup ∧ ∀ x ∈ ext, x ∉ used ∧ x ∈ ls ∧ x ≠ k := by
  intro ls
  induction ls with
  | nil =>
    intro cluster used
    exact ⟨[], by simp [gatherCluster]⟩
  | cons o rest ih =>
    intro cluster used
    by_cases h : o ∉ used ∧ o ≠ k ∧ charSet k ≠ [] ∧ charSet o ≠ [] ∧ τ ≤ jaccardSim k o
    · obtain ⟨ext, h1, h2, h3, h4⟩ := ih (cluster ++ [o]) (used ++ [o])
      refine ⟨o :: ext, ?_, ?_, ?_, ?_⟩
      · rw [gatherCluster, if_pos h, h1]
        simp
      · rw [gatherCluster, if_pos h, h2]
        simp
      · refine List.nodup_cons.mpr ⟨fun hmem => ?_, h3⟩
        exact (h4 o hmem).1 (by simp)
      · intro x hx
        rcases List.mem_cons.mp hx with hx | hx
        · subst hx
          exact ⟨h.1, by simp, h.2.1⟩
        · obtain ⟨hnu, hmem, hne⟩ := h4 x hx
          refine ⟨fun hc => hnu (by simp [hc]), by simp [hmem], hne⟩
    · obtain ⟨ext, h1, h2, h3, h4⟩ := ih cluster used
      refine ⟨ext, ?_, ?_, h3, ?_⟩
      · rw [gatherCluster, if_neg h]
        exact h1
      · rw [gatherCluster, if_neg h]
        exact h2
      · intro x hx
        obtain ⟨hnu, hmem, hne⟩ := h4 x hx
        exact ⟨hnu, by simp [hmem], hne⟩

theorem clusterOuter_spec (kws : List String) (τ : ℚ) :
    ∀ (queue used : List String),
      (∀ c ∈ clusterOuter kws τ queue used, 2 ≤ c.2.length ∧ c.2.Nodup ∧
        ∀ x ∈ c.2, x ∉ used) ∧
      (clusterOuter kws τ queue used).Pairwise (fun c d => ∀ x ∈ c.2, x ∉ d.2) := by
  intro queue
  induction queue with
  | nil =>
    intro used
    simp [clusterOuter]
  | cons k rest ih =>
    intro used
    by_cases hk : k ∈ used
    · rw [clusterOuter, if_pos hk]
      refine ⟨fun c hc => (ih used).1 c hc, (ih used).2⟩
    · rw [clusterOuter, if_neg hk]
      obtain ⟨ext, hp1, hp2, hext_nd, hext⟩ := gatherCluster_spec τ k kws [k] (used ++ [k])
      have hsub : ∀ x ∈ (gatherCluster τ k kws [k] (used ++ [k])).1,
          x ∈ (gatherCluster τ k kws [k] (used ++ [k])).2 := by
        intro x hx
        rw [hp1] at hx
        rw [hp2]
        rcases List.mem_append.mp hx with hx | hx
        · simp at hx
          simp [hx]
        · simp [hx]
      have hnotused : ∀ x ∈ (gatherCluster τ k kws [k] (used ++ [k])).1, x ∉ used := by
        intro x hx
        rw [hp1] at hx
        rcases List.mem_append.mp hx with hx | hx
        · simp at hx
          subst hx
          exact hk
        · intro hc
          exact (hext x hx).1 (by simp [hc])
      have hused_sub : ∀ x, x ∈ used → x ∈ (gatherCluster τ k kws [k] (used ++ [k])).2 := by
        intro x hx
        rw [hp2]
        simp [hx]
      split
      next hlt =>
        constructor
        · intro c hc
          rcases List.mem_cons.mp hc with hc | hc
          · subst hc
            refine ⟨by simpa using hlt, ?_, hnotused⟩
            rw [hp1]
            refine List.nodup_cons.mpr ⟨fun hmem => (hext k hmem).2.2 rfl, hext_nd⟩
          · obtain ⟨hlen, hnd, hnot⟩ := (ih _).1 c hc
            exact ⟨hlen, hnd, fun x hx hc' => hnot x hx (hused_sub x hc')⟩
        · refine List.pairwise_cons.mpr ⟨?_, (ih _).2⟩
          intro d hd x hx
          exact fun hc => ((ih _).1 d hd).2.2 x hc (hsub _ hx)
      · refine ⟨fun c hc => ?_, (ih _).2⟩
        obtain ⟨hlen, hnd, hnot⟩ := (ih _).1 c hc
        exact ⟨hlen, hnd, fun x hx hc' => hnot x hx (hused_sub x hc')⟩

/-- C8: in every clustering returned by `cluster_related_keywords`, every
emitted cluster has at least 2 members (and duplicate-free member lists),
and the member lists of distinct clusters are disjoint, so each distinct
keyword string appears in the member list of at most one cluster. -/
theorem cluster_disjoint_and_min_size (kws : List String) (τ : ℚ) :
    (∀ c ∈ cluster_related_keywords kws τ, 2 ≤ c.2.length ∧ c.2.Nodup) ∧
    (cluster_related_keywords kws τ).Pairwise (fun c d => ∀ x ∈ c.2, x ∉ d.2) := by
  unfold cluster_related_keywords
  split
  · simp
  · refine ⟨fun c hc => ?_, (clusterOuter_spec kws τ _ []).2⟩
    obtain ⟨hlen, hnd, _⟩ := (clusterOuter_spec kws τ _ []).1 c hc
    exact ⟨hlen, hnd⟩

theorem clusterOuter_leader_le (kws : List String) (τ : ℚ) :
    ∀ (queue used : List String), queue.Sorted (· ≤ ·) →
      (∀ x ∈ kws, x ∉ used → x ∈ queue) →
      ∀ c ∈ clusterOuter kws τ queue used, c.1 ∈ c.2 ∧ ∀ m ∈ c.2, c.1 ≤ m := by
  intro queue
  induction queue with
  | nil =>
    intro used _ _
    simp [clusterOuter]
  | cons k rest ih =>
    intro used hsorted hcomplete
    have hs := List.sorted_cons.mp hsorted
    by_cases hk : k ∈ used
    · rw [clusterOuter, if_pos hk]
      refine ih used hs.2 ?_
      intro x hx hnu
      rcases List.mem_cons.mp (hcomplete x hx hnu) with hx' | hx'
      · exact absurd (hx' ▸ hk) hnu
      · exact hx'
    · rw [clusterOuter, if_neg hk]
      obtain ⟨ext, hp1, hp2, _, hext⟩ := gatherCluster_spec τ k kws [k] (used ++ [k])
      have hrec : ∀ x ∈ kws, x ∉ (gatherCluster τ k kws [k] (used ++ [k])).2 → x ∈ rest := by
        intro x hx hnu
        rw [hp2] at hnu
        have hnused : x ∉ used := fun hc => hnu (by simp [hc])
        rcases List.mem_cons.mp (hcomplete x hx hnused) with hx' | hx'
        · exact absurd hx' (fun hc => hnu (by simp [hc]))
        · exact hx'
      have hhead : (k, (gatherCluster τ k kws [k] (used ++ [k])).1).1 ∈
            (gatherCluster τ k kws [k] (used ++ [k])).1 ∧
          ∀ m ∈ (gatherCluster τ k kws [k] (used ++ [k])).1, k ≤ m := by
        constructor
        · rw [hp1]
          simp
        · intro m hm
          rw [hp1] at hm
          rcases List.mem_append.mp hm with hm | hm
          · simp at hm
            simp [hm]
          · obtain ⟨hnu, hmem, _⟩ := hext m hm
            have : m ∈ rest := by
              rcases List.mem_cons.mp
                  (hcomplete m hmem (fun hc => hnu (by simp [hc]))) with hm' | hm'
              · exact absurd hm' (hext m hm).2.2
              · exact hm'
            exact hs.1 m this
      split
      · intro c hc
        rcases List.mem_cons.mp hc with hc | hc
        · subst hc
          exact hhead
        · exact ih _ hs.2 hrec c hc
      · exact ih _ hs.2 hrec

/-- C10: in every clustering returned by `cluster_related_keywords`, each
cluster's leader key is a member of its own cluster and is
lexicographically least among the cluster's members. -/
theorem cluster_leader_lex_min (kws : List String) (τ : ℚ) :
    ∀ c ∈ cluster_related_keywords kws τ, c.1 ∈ c.2 ∧ ∀ m ∈ c.2, c.1 ≤ m := by
  unfold cluster_related_keywords
  split
  · simp
  · refine clusterOuter_leader_le kws τ _ [] (List.sorted_insertionSort _ _) ?_
    intro x hx _
    exact ((List.perm_insertionSort (· ≤ ·) kws).mem_iff).mpr hx

/-! ### Frequency-table lemmas (C6) -/

theorem mem_firstOccs {x : String} : ∀ {l : List String}, x ∈ firstOccs l ↔ x ∈ l := by
  intro l
  induction l with
  | nil => simp [firstOccs]
  | cons a t ih =>
    simp only [firstOccs, List.mem_cons, List.mem_filter, bne_iff_ne, ih]
    by_cases hx : x = a
    · simp [hx]
    · simp [hx]

theorem nodup_firstOccs : ∀ (l : List String), (firstOccs l).Nodup := by
  intro l
  induction l with
  | nil => simp [firstOccs]
  | cons a t ih =>
    refine List.nodup_cons.mpr ⟨?_, ih.filter _⟩
    intro hc
    exact absurd rfl (bne_iff_ne.mp (List.mem_filter.mp hc).2)

theorem sum_count_firstOccs : ∀ (l : List String),
    ((firstOccs l).map (fun k => l.count k)).sum = l.length := by
  intro l
  induction l with
  | nil => simp [firstOccs]
  | cons a t ih =>
    have hcount_ne : ∀ k : String, k ≠ a → (a :: t).count k = t.count k := by
      intro k hk
      simp [List.count_cons, hk.symm]
    have hmap_ne : ∀ (ll : List String), (∀ k ∈ ll, k ≠ a) →
        (ll.map (fun k => (a :: t).count k)).sum = (ll.map (fun k => t.count k)).sum := by
      intro ll hll
      congr 1
      exact List.map_congr_left (fun k hk => hcount_ne k (hll k hk))
    by_cases ha : a ∈ firstOccs t
    · have hperm : List.Perm (firstOccs t) (a :: (firstOccs t).filter (fun x => x != a)) := by
        have hpe := List.perm_cons_erase ha
        rwa [(nodup_firstOccs t).erase_eq_filter a] at hpe
      have hsum : ((firstOccs t).map (fun k => t.count k)).sum =
          t.count a + (((firstOccs t).filter (fun x => x != a)).map (fun k => t.count k)).sum := by
        have hmsum := (hperm.map (fun k => t.count k)).sum_eq
        simpa using hmsum
      have hfsum : (((firstOccs t).filter (fun x => x != a)).map
          (fun k => (a :: t).count k)).sum =
          (((firstOccs t).filter (fun x => x != a)).map (fun k => t.count k)).sum :=
        hmap_ne _ (fun k hk => bne_iff_ne.mp (List.mem_filter.mp hk).2)
      rw [show firstOccs (a :: t) = a :: (firstOccs t).filter (fun x => x != a) from rfl,
        List.map_cons, List.sum_cons, hfsum, List.count_cons_self]
      simp only [List.length_cons]
      omega
    · have hanot : a ∉ t := fun hc => ha (mem_firstOccs.mpr hc)
      have hfilter : (firstOccs t).filter (fun x => x != a) = firstOccs t := by
        apply List.filter_eq_self.mpr
        intro k hk
        exact bne_iff_ne.mpr (fun hc => ha (hc ▸ hk))
      have hfsum : ((firstOccs t).map (fun k => (a :: t).count k)).sum =
          ((firstOccs t).map (fun k => t.count k)).sum :=
        hmap_ne _ (fun k hk => fun hc => ha (hc ▸ hk))
      rw [show firstOccs (a :: t) = a :: (firstOccs t).filter (fun x => x != a) from rfl,
        List.map_cons, List.sum_cons, hfilter, hfsum, List.count_cons_self,
        List.count_eq_zero.mpr hanot]
      simp only [List.length_cons]
      omega

theorem length_firstOccs_eq_dedup (l : List String) :
    (firstOccs l).length = l.dedup.length := by
  refine (List.perm_of_nodup_nodup_toFinset_eq (nodup_firstOccs l) l.nodup_dedup ?_).length_eq
  ext x
  simp [mem_firstOccs, List.mem_dedup]

theorem sum_map_cast_div_mul (l : List ℕ) (a b : ℚ) :
    (l.map (fun c : ℕ => (c : ℚ) / a * b)).sum = ((l.sum : ℕ) : ℚ) / a * b := by
  induction l with
  | nil => simp
  | cons c t ih =>
    simp only [List.map_cons, List.sum_cons, ih]
    push_cast
    ring

/-- C6 (amended): for every non-empty keyword list and every `top_n`, each
row of the frequency table carries the keyword's exact occurrence count and
the percentage `count/total*100` rounded to 2 decimals; the exact
(pre-rounding) percentages of the full returned table sum to at most 100,
and to exactly 100 when `top_n` is at least the number of distinct
keywords.  (The sum of the *rounded* percentages can differ from these
bounds; see the counterexample.) -/
theorem freq_table_percentages (ks : List String) (topn : ℕ) (h : ks ≠ []) :
    (∀ r ∈ analyze_keyword_frequency ks topn,
      r.frequency = ks.count r.keyword ∧
      r.percentage = round2 ((ks.count r.keyword : ℚ) / ks.length * 100)) ∧
    ((analyze_keyword_frequency ks topn).map
      (fun r => (r.frequency : ℚ) / ks.length * 100)).sum ≤ 100 ∧
    (ks.dedup.length ≤ topn →
      ((analyze_keyword_frequency ks topn).map
        (fun r => (r.frequency : ℚ) / ks.length * 100)).sum = 100) := by
  have hL : (0 : ℚ) < (ks.length : ℚ) := by
    have := List.length_pos.mpr h
    exact_mod_cast this
  have hpermMC : List.Perm (mostCommon (counterItems ks)) (counterItems ks) := by
    unfold mostCommon
    exact List.perm_insertionSort _ _
  have hitems : ∀ kc ∈ (mostCommon (counterItems ks)).take topn,
      kc.2 = ks.count kc.1 := by
    intro kc hkc
    have h1 : kc ∈ mostCommon (counterItems ks) := List.take_subset _ _ hkc
    have h2 : kc ∈ counterItems ks := hpermMC.subset h1
    obtain ⟨k, _, rfl⟩ := List.mem_map.mp h2
    rfl
  have hrows : analyze_keyword_frequency ks topn =
      ((mostCommon (counterItems ks)).take topn).map (fun kc =>
        { keyword := kc.1, frequency := kc.2,
          percentage := round2 ((kc.2 : ℚ) / ks.length * 100) : FreqRow }) := by
    unfold analyze_keyword_frequency
    rw [if_neg h]
  have hsum_eq : ((analyze_keyword_frequency ks topn).map
      (fun r => (r.frequency : ℚ) / ks.length * 100)).sum =
      (((((mostCommon (counterItems ks)).take topn).map
          (fun kc : String × ℕ => kc.2)).sum : ℕ) : ℚ) / ks.length * 100 := by
    rw [hrows, List.map_map]
    have hfuneq : ((fun r : FreqRow => (r.frequency : ℚ) / ks.length * 100) ∘
        (fun kc : String × ℕ =>
          { keyword := kc.1, frequency := kc.2,
            percentage := round2 ((kc.2 : ℚ) / ks.length * 100) : FreqRow })) =
        ((fun c : ℕ => (c : ℚ) / ks.length * 100) ∘ (fun kc : String × ℕ => kc.2)) := rfl
    rw [hfuneq, ← List.map_map, sum_map_cast_div_mul]
  have htotal : ((mostCommon (counterItems ks)).map (fun kc : String × ℕ => kc.2)).sum =
      ks.length := by
    have hperm : List.Perm
        ((mostCommon (counterItems ks)).map (fun kc : String × ℕ => kc.2))
        ((counterItems ks).map (fun kc : String × ℕ => kc.2)) := hpermMC.map _
    rw [hperm.sum_eq]
    unfold counterItems
    rw [List.map_map]
    exact sum_count_firstOccs ks
  have htake_le : (((mostCommon (counterItems ks)).take topn).map
      (fun kc : String × ℕ => kc.2)).sum ≤ ks.length := by
    rw [← htotal, List.map_take]
    have hsplit := List.sum_take_add_sum_drop
      ((mostCommon (counterItems ks)).map (fun kc : String × ℕ => kc.2)) topn
    omega
  refine ⟨?_, ?_, ?_⟩
  · intro r hr
    rw [hrows] at hr
    obtain ⟨kc, hkc, rfl⟩ := List.mem_map.mp hr
    have := hitems kc hkc
    constructor
    · exact this
    · simp only [this]
  · rw [hsum_eq]
    rw [div_mul_eq_mul_div, div_le_iff₀ hL]
    have hcast : (((((mostCommon (counterItems ks)).take topn).map
        (fun kc : String × ℕ => kc.2)).sum : ℕ) : ℚ) ≤ ((ks.length : ℕ) : ℚ) :=
      Nat.cast_le.mpr htake_le
    nlinarith
  · intro htop
    have hlen : (mostCommon (counterItems ks)).length ≤ topn := by
      have h1 : (mostCommon (counterItems ks)).length = (counterItems ks).length :=
        hpermMC.length_eq
      have h2 : (counterItems ks).length = (firstOccs ks).length := List.length_map _ _
      rw [h1, h2, length_firstOccs_eq_dedup]
      exact htop
    rw [hsum_eq, List.take_of_length_le hlen, htotal]
    rw [div_self hL.ne']
    norm_num

/-! ### C6 counterexample: the rounded percentages can sum to more than 100 -/

/-- C6 as stated is false: for the six distinct keywords a–f with
`top_n = 6` (which is ≥ the distinct-keyword count, as recorded in the
first conjunct), every percentage rounds to 16.67, and the percentages over
the full returned table sum to 100.02 — strictly more than 100, hence also
not equal to 100. -/
theorem freq_percentage_sum_exceeds_100_cex :
    (["a", "b", "c", "d", "e", "f"] : List String).dedup.length ≤ 6 ∧
    ((analyze_keyword_frequency ["a", "b", "c", "d", "e", "f"] 6).map
      (fun r => r.percentage)).sum = 5001/50 ∧
    (100 : ℚ) < ((analyze_keyword_frequency ["a", "b", "c", "d", "e", "f"] 6).map
      (fun r => r.percentage)).sum := by
  have heval : (analyze_keyword_frequency ["a", "b", "c", "d", "e", "f"] 6).map
      (fun r => r.percentage) =
      [1667/100, 1667/100, 1667/100, 1667/100, 1667/100, 1667/100] := by
    simp +decide only [analyze_keyword_frequency, mostCommon, counterItems, firstOccs,
      List.insertionSort, List.orderedInsert, List.count_cons, List.count_nil,
      List.filter, List.map, List.take]
    norm_num [round2, roundHalfEven, Int.fract]
  refine ⟨by decide, ?_, ?_⟩
  · rw [heval]
    norm_num
  · rw [heval]
    norm_num

/-! ### String lemmas: `normalize_url` is idempotent -/

theorem dropWhile_idem {α : Type} (p : α → Bool) :
    ∀ l : List α, (l.dropWhile p).dropWhile p = l.dropWhile p := by
  intro l
  induction l with
  | nil => rfl
  | cons a t ih =>
    by_cases h : p a
    · simp [List.dropWhile_cons, h, ih]
    · simp [List.dropWhile_cons, h]

theorem dropWhile_reverse_dropWhile_reverse {α : Type} (p : α → Bool) (z : List α)
    (hz : z.dropWhile p = z) :
    ((z.reverse.dropWhile p).reverse).dropWhile p = (z.reverse.dropWhile p).reverse := by
  cases z with
  | nil => simp
  | cons a t =>
    have hpa : p a = false := by
      by_contra hc
      rw [Bool.not_eq_false] at hc
      rw [List.dropWhile_cons, if_pos hc] at hz
      have hsub : (a :: t).length ≤ t.length := by
        conv_lhs => rw [← hz]
        exact (List.dropWhile_sublist _).length_le
      simp at hsub
    rw [List.reverse_cons, List.dropWhile_append]
    split
    · simp [List.dropWhile_cons, hpa]
    · rw [List.reverse_append]
      simp [List.dropWhile_cons, hpa]

theorem pyStripChars_idem (l : List Char) :
    pyStripChars (pyStripChars l) = pyStripChars l := by
  have h1 : (pyStripChars l).dropWhile Char.isWhitespace = pyStripChars l := by
    unfold pyStripChars
    exact dropWhile_reverse_dropWhile_reverse _ _ (dropWhile_idem _ l)
  have h2 : (pyStripChars l).reverse.dropWhile Char.isWhitespace = (pyStripChars l).reverse := by
    unfold pyStripChars
    rw [List.reverse_reverse]
    exact dropWhile_idem _ _
  calc pyStripChars (pyStripChars l)
      = (((pyStripChars l).dropWhile Char.isWhitespace).reverse.dropWhile
          Char.isWhitespace).reverse := rfl
    _ = ((pyStripChars l).reverse.dropWhile Char.isWhitespace).reverse := by rw [h1]
    _ = (pyStripChars l).reverse.reverse := by rw [h2]
    _ = pyStripChars l := List.reverse_reverse _

theorem mem_pyStripChars {c : Char} {l : List Char} (hc : c ∈ pyStripChars l) : c ∈ l := by
  unfold pyStripChars at hc
  rw [List.mem_reverse] at hc
  have hc2 := (List.dropWhile_sublist _).subset hc
  rw [List.mem_reverse] at hc2
  exact (List.dropWhile_sublist _).subset hc2

theorem takeWhile_eq_self_of_all {α : Type} {p : α → Bool} :
    ∀ {l : List α}, (∀ c ∈ l, p c = true) → l.takeWhile p = l := by
  intro l
  induction l with
  | nil => simp
  | cons a t ih =>
    intro h
    rw [List.takeWhile_cons, if_pos (h a (by simp))]
    rw [ih (fun c hc => h c (by simp [hc]))]

theorem normalize_url_idem (u : String) :
    normalize_url (normalize_url u) = normalize_url u := by
  by_cases hu : u = ""
  · simp [normalize_url, hu]
  · unfold normalize_url
    rw [if_neg hu]
    by_cases hS : (⟨pyStripChars (u.data.takeWhile (fun c => c != '#'))⟩ : String) = ""
    · rw [if_pos hS]
    · rw [if_neg hS]
      have hall : ∀ c ∈ pyStripChars (u.data.takeWhile (fun c => c != '#')),
          (c != '#') = true := by
        intro c hcmem
        have h0 : c ∈ u.data.takeWhile (fun c => c != '#') := mem_pyStripChars hcmem
        simpa using List.mem_takeWhile_imp h0
      have hdata : (⟨pyStripChars (u.data.takeWhile (fun c => c != '#'))⟩ : String).data =
          pyStripChars (u.data.takeWhile (fun c => c != '#')) := rfl
      rw [hdata, takeWhile_eq_self_of_all hall, pyStripChars_idem]

/-! ### Crawl-loop structural lemmas -/

theorem classifyLinks_internal_spec (join : String → String → String) (url dom : String) :
    ∀ raws : List String, ∀ x ∈ (classifyLinks join url dom raws).1,
      netlocOf x = dom ∧ normalize_url x = x := by
  intro raws
  induction raws with
  | nil =>
    intro x hx
    simp [classifyLinks] at hx
  | cons raw rest ih =>
    intro x hx
    rw [classifyLinks] at hx
    split at hx
    · exact ih x hx
    · split at hx
      next hdom =>
        rcases List.mem_cons.mp hx with hx | hx
        · subst hx
          exact ⟨hdom, normalize_url_idem _⟩
        · exact ih x hx
      next => exact ih x hx

theorem enqueueLinks_mem (visited : List String) :
    ∀ (links q : List String) (x : String), x ∈ enqueueLinks visited q links →
      x ∈ q ∨ (x ∈ links ∧ x ∉ visited ∧ (schemeOf x = "http" ∨ schemeOf x = "https")) := by
  intro links
  induction links with
  | nil =>
    intro q x hx
    rw [enqueueLinks] at hx
    exact .inl hx
  | cons link rest ih =>
    intro q x hx
    rw [enqueueLinks] at hx
    split at hx
    next hcond =>
      rcases ih _ x hx with hq | ⟨hm, hnv, hs⟩
      · rcases List.mem_append.mp hq with hq | hq
        · exact .inl hq
        · have hxl : x = link := by simpa using hq
          subst hxl
          exact .inr ⟨by simp, hcond.1, hcond.2.2⟩
      · exact .inr ⟨by simp [hm], hnv, hs⟩
    next =>
      rcases ih _ x hx with hq | ⟨hm, hnv, hs⟩
      · exact .inl hq
      · exact .inr ⟨by simp [hm], hnv, hs⟩

theorem enqueueLinks_nodup (visited : List String) :
    ∀ (links q : List String), q.Nodup → (enqueueLinks visited q links).Nodup := by
  intro links
  induction links with
  | nil =>
    intro q hq
    rw [enqueueLinks]
    exact hq
  | cons link rest ih =>
    intro q hq
    rw [enqueueLinks]
    split
    next hcond =>
      refine ih _ ?_
      simp [List.nodup_append, hq, hcond.2.1]
    next => exact ih _ hq

theorem processUrl_spec (w : World) (cfg : Config) (s : CrawlState) (url : String)
    (rest : List String) :
    (processUrl w cfg s url rest).visited = s.visited ++ [url] ∧
    (processUrl w cfg s url rest).fetchLog = s.fetchLog ++ [url] ∧
    (processUrl w cfg s url rest).robotsLog = s.robotsLog ∧
    (∃ r : Row, (processUrl w cfg s url rest).rows = s.rows ++ [r] ∧ r.url = url) ∧
    ((processUrl w cfg s url rest).toVisit = rest ∨
      ∃ links : List String,
        (∀ x ∈ links, netlocOf x = cfg.seedDomain ∧ normalize_url x = x) ∧
        (processUrl w cfg s url rest).toVisit = enqueueLinks s.visited rest links) := by
  unfold processUrl
  split
  · exact ⟨rfl, rfl, rfl, ⟨_, rfl, rfl⟩, .inl rfl⟩
  · split
    · exact ⟨rfl, rfl, rfl, ⟨_, rfl, rfl⟩, .inl rfl⟩
    · exact ⟨rfl, rfl, rfl, ⟨_, rfl, rfl⟩,
        .inr ⟨_, fun x hx => classifyLinks_internal_spec w.join url cfg.seedDomain _ x hx, rfl⟩⟩

theorem step_skip_inv {w : World} {cfg : Config} {s s' : CrawlState}
    (h : step w cfg s = .skip s') :
    ∃ url0 rest, s.toVisit = url0 :: rest ∧ s' = { s with toVisit := rest } := by
  unfold step at h
  split at h
  · split at h
    · exact absurd h (by simp)
    · next url0 rest heq =>
      split at h
      · injection h with h'
        exact ⟨url0, rest, heq, h'.symm⟩
      · split at h
        · injection h with h'
          exact ⟨url0, rest, heq, h'.symm⟩
        · split at h
          · exact absurd h (by simp)
          · split at h
            · exact absurd h (by simp)
            · exact absurd h (by simp)
  · exact absurd h (by simp)

theorem step_proc_inv {w : World} {cfg : Config} {s s' : CrawlState}
    (h : step w cfg s = .proc s') :
    ∃ url0 rest, s.toVisit = url0 :: rest ∧ s.visited.length < cfg.maxPages ∧
      normalize_url url0 ≠ "" ∧ normalize_url url0 ∉ s.visited ∧
      ((cfg.ignoreRobots = true ∧ s' = processUrl w cfg s (normalize_url url0) rest) ∨
        (cfg.ignoreRobots = false ∧ w.robotsAllows (normalize_url url0) = true ∧
          s' = processUrl w cfg
            { s with robotsLog := s.robotsLog ++ [robotsUrlOf (normalize_url url0)] }
            (normalize_url url0) rest)) := by
  unfold step at h
  split at h
  next hcap =>
    split at h
    · exact absurd h (by simp)
    · next url0 rest heq =>
      split at h
      next h1 => exact absurd h (by simp)
      next h1 =>
        split at h
        next h2 => exact absurd h (by simp)
        next h2 =>
          split at h
          next h3 =>
            injection h with h'
            exact ⟨url0, rest, heq, hcap, h1, h2, .inl ⟨by simpa using h3, h'.symm⟩⟩
          next h3 =>
            split at h
            next h4 =>
              injection h with h'
              exact ⟨url0, rest, heq, hcap, h1, h2,
                .inr ⟨by simpa using h3, by simpa using h4, h'.symm⟩⟩
            next h4 => exact absurd h (by simp)
  next => exact absurd h (by simp)

theorem crawlLoop_done {w : World} {cfg : Config} {s : CrawlState} {r : CrawlResult}
    (h : step w cfg s = .done r) : crawlLoop w cfg s = r := by
  rw [crawlLoop]
  split
  next h' =>
    rw [h] at h'
    injection h' with h''
    exact h''.symm
  next h' =>
    rw [h] at h'
    exact absurd h' (by simp)
  next h' =>
    rw [h] at h'
    exact absurd h' (by simp)

/-! ### C1: a robots block aborts the whole crawl with no rows -/

/-- C1: whenever the crawl loop is at a state whose queue front, after
normalization, is a non-empty unvisited URL that the robots gate disallows
(with `ignore_robots` unset and the page cap not yet reached), `crawl_site`
returns immediately: the result has an empty row table — discarding every
row already accumulated in the state — `blocked = true`, and the robots.txt
URL of the blocking URL's origin. -/
theorem crawl_blocked_aborts_with_empty_rows (w : World) (cfg : Config) (s : CrawlState)
    (url0 : String) (rest : List String)
    (hq : s.toVisit = url0 :: rest)
    (hcap : s.visited.length < cfg.maxPages)
    (hne : normalize_url url0 ≠ "")
    (hnv : normalize_url url0 ∉ s.visited)
    (hir : cfg.ignoreRobots = false)
    (hblocked : w.robotsAllows (normalize_url url0) = false) :
    crawlLoop w cfg s =
      { rows := [], blocked := true, robotsUrl := some (robotsUrlOf (normalize_url url0)) } := by
  refine crawlLoop_done ?_
  simp only [step, hq]
  rw [if_pos hcap, if_neg hne, if_neg hnv]
  rw [if_neg (by simp [hir]), if_neg (by simp [hblocked])]

/-! ### C2: each URL is fetched at most once and yields exactly one row -/

/-- C2: at every state reached during a `crawl_site` run, the list of URLs
passed to `session.get` coincides with the visited list, the result rows'
URL column coincides with the visited list, and the visited list has no
duplicates — so each URL added to the visited set has exactly one row
(including HTTP-error and fetch-exception outcomes), no URL is fetched
twice, and per URL there is at most one GET and at most one row. -/
theorem crawl_fetch_once_row_once (w : World) (cfg : Config) (seed : String)
    (s : CrawlState) (h : Reachable w cfg (initState seed) s) :
    s.fetchLog = s.visited ∧ s.rows.map Row.url = s.visited ∧ s.visited.Nodup ∧
    (∀ u : String, s.fetchLog.count u ≤ 1 ∧ (s.rows.map Row.url).count u ≤ 1) := by
  induction h with
  | refl => simp [initState]
  | @skip t t' hr hs ih =>
    obtain ⟨url0, rest, heq, rfl⟩ := step_skip_inv hs
    exact ih
  | @proc t t' hr hs ih =>
    obtain ⟨url0, rest, heq, hlt, hne, hnv, hcases⟩ := step_proc_inv hs
    obtain ⟨hfl, hvl, hnd, _⟩ := ih
    have main : ∀ (sX : CrawlState), sX.fetchLog = t.fetchLog → sX.visited = t.visited →
        sX.rows = t.rows →
        (processUrl w cfg sX (normalize_url url0) rest).fetchLog =
          (processUrl w cfg sX (normalize_url url0) rest).visited ∧
        (processUrl w cfg sX (normalize_url url0) rest).rows.map Row.url =
          (processUrl w cfg sX (normalize_url url0) rest).visited ∧
        (processUrl w cfg sX (normalize_url url0) rest).visited.Nodup ∧
        (∀ u : String, (processUrl w cfg sX (normalize_url url0) rest).fetchLog.count u ≤ 1 ∧
          ((processUrl w cfg sX (normalize_url url0) rest).rows.map Row.url).count u ≤ 1) := by
      intro sX hXf hXv hXr
      obtain ⟨hv, hf, _, ⟨r, hrows, hurl⟩, _⟩ := processUrl_spec w cfg sX (normalize_url url0) rest
      have h1 : (processUrl w cfg sX (normalize_url url0) rest).fetchLog =
          (processUrl w cfg sX (normalize_url url0) rest).visited := by
        rw [hv, hf, hXf, hXv, hfl]
      have h2 : (processUrl w cfg sX (normalize_url url0) rest).rows.map Row.url =
          (processUrl w cfg sX (normalize_url url0) rest).visited := by
        rw [hv, hrows, hXv, hXr, List.map_append, hvl]
        simp [hurl]
      have h3 : (processUrl w cfg sX (normalize_url url0) rest).visited.Nodup := by
        rw [hv, hXv]
        simp [List.nodup_append, hnd, hnv]
      refine ⟨h1, h2, h3, fun u => ⟨?_, ?_⟩⟩
      · rw [h1]
        exact List.nodup_iff_count_le_one.mp h3 u
      · rw [h2]
        exact List.nodup_iff_count_le_one.mp h3 u
    rcases hcases with ⟨_, rfl⟩ | ⟨_, _, rfl⟩
    · exact main t rfl rfl rfl
    · exact main _ rfl rfl rfl

/-! ### C3: the visited set never exceeds the page cap -/

/-- C3: for every seed URL and every page cap of at least 1, at every state
reached during a `crawl_site` run the size of the visited set is at most
the configured `max_pages` cap. -/
theorem crawl_visited_le_maxPages (w : World) (cfg : Config) (seed : String)
    (s : CrawlState) (_hcap : 1 ≤ cfg.maxPages)
    (h : Reachable w cfg (initState seed) s) :
    s.visited.length ≤ cfg.maxPages := by
  induction h with
  | refl => simp [initState]
  | skip hr hs ih =>
    obtain ⟨url0, rest, heq, rfl⟩ := step_skip_inv hs
    exact ih
  | proc hr hs ih =>
    obtain ⟨url0, rest, heq, hlt, hne, hnv, hcases⟩ := step_proc_inv hs
    rcases hcases with ⟨_, rfl⟩ | ⟨_, _, rfl⟩ <;>
    · rw [(processUrl_spec w cfg _ (normalize_url url0) rest).1]
      simp only [List.length_append, List.length_cons, List.length_nil]
      omega

/-! ### C4 (amended): frontier discipline -/

/-- C4 (amended): at every state reached during a `crawl_site` run, every
queue entry other than the initial seed is a normalized same-domain URL
with scheme http or https (so only such links are ever appended to the
frontier, and cross-origin links are never enqueued); the queue never
contains a URL twice; and every fetched URL is the normalized seed or has
the seed's network location (cross-origin links are never fetched).  The
original claim's further conjunct — that no URL is ever simultaneously in
the queue and the visited set — is false: see the counterexample, in which
a page linking to itself re-enqueues the URL being processed just before it
is marked visited. -/
theorem crawl_frontier_same_domain_nodup (w : World) (cfg : Config) (seed : String)
    (s : CrawlState) (h : Reachable w cfg (initState seed) s) :
    (∀ l ∈ s.toVisit, l = rstripSlash seed ∨
      (netlocOf l = cfg.seedDomain ∧ (schemeOf l = "http" ∨ schemeOf l = "https") ∧
        normalize_url l = l)) ∧
    s.toVisit.Nodup ∧
    (∀ u ∈ s.fetchLog, u = normalize_url (rstripSlash seed) ∨ netlocOf u = cfg.seedDomain) := by
  induction h with
  | refl =>
    refine ⟨?_, by simp [initState], by simp [initState]⟩
    intro l hl
    simp [initState] at hl
    exact .inl hl
  | @skip t t' hr hs ih =>
    obtain ⟨url0, rest, heq, rfl⟩ := step_skip_inv hs
    obtain ⟨hqinv, hqnd, hfinv⟩ := ih
    rw [heq] at hqinv hqnd
    exact ⟨fun l hl => hqinv l (by simp [hl]), (List.nodup_cons.mp hqnd).2, hfinv⟩
  | @proc t t' hr hs ih =>
    obtain ⟨url0, rest, heq, hlt, hne, hnv, hcases⟩ := step_proc_inv hs
    obtain ⟨hqinv, hqnd, hfinv⟩ := ih
    rw [heq] at hqinv hqnd
    have hrest_inv : ∀ l ∈ rest, l = rstripSlash seed ∨
        (netlocOf l = cfg.seedDomain ∧ (schemeOf l = "http" ∨ schemeOf l = "https") ∧
          normalize_url l = l) := fun l hl => hqinv l (by simp [hl])
    have hrest_nd : rest.Nodup := (List.nodup_cons.mp hqnd).2
    have hurl0 : normalize_url url0 = normalize_url (rstripSlash seed) ∨
        netlocOf (normalize_url url0) = cfg.seedDomain := by
      rcases hqinv url0 (by simp) with h0 | ⟨hn, _, hnorm⟩
      · exact .inl (by rw [h0])
      · exact .inr (by rw [hnorm, hn])
    have main : ∀ (sX : CrawlState), sX.visited = t.visited → sX.fetchLog = t.fetchLog →
        (∀ l ∈ (processUrl w cfg sX (normalize_url url0) rest).toVisit,
          l = rstripSlash seed ∨
          (netlocOf l = cfg.seedDomain ∧ (schemeOf l = "http" ∨ schemeOf l = "https") ∧
            normalize_url l = l)) ∧
        (processUrl w cfg sX (normalize_url url0) rest).toVisit.Nodup ∧
        (∀ u ∈ (processUrl w cfg sX (normalize_url url0) rest).fetchLog,
          u = normalize_url (rstripSlash seed) ∨ netlocOf u = cfg.seedDomain) := by
      intro sX hXv hXf
      obtain ⟨hv, hf, _, _, hqcases⟩ := processUrl_spec w cfg sX (normalize_url url0) rest
      refine ⟨?_, ?_, ?_⟩
      · intro l hl
        rcases hqcases with hq | ⟨links, hlinks, hq⟩
        · exact hrest_inv l (hq ▸ hl)
        · rw [hq] at hl
          rcases enqueueLinks_mem sX.visited links rest l hl with hl | ⟨hml, _, hsch⟩
          · exact hrest_inv l hl
          · exact .inr ⟨(hlinks l hml).1, hsch, (hlinks l hml).2⟩
      · rcases hqcases with hq | ⟨links, _, hq⟩
        · rw [hq]
          exact hrest_nd
        · rw [hq]
          exact enqueueLinks_nodup sX.visited links rest hrest_nd
      · intro u hu
        rw [hf, hXf] at hu
        rcases List.mem_append.mp hu with hu | hu
        · exact hfinv u hu
        · have hueq : u = normalize_url url0 := by simpa using hu
          subst hueq
          exact hurl0
    rcases hcases with ⟨_, rfl⟩ | ⟨_, _, rfl⟩
    · exact main t rfl rfl
    · exact main _ rfl rfl

/-! ### C5 (amended): robots.txt is read once per robots check, not once per origin -/

/-- C5 (amended): with `ignore_robots` unset, at every state reached during
a `crawl_site` run the list of robots.txt reads equals the visited list
mapped to each URL's robots.txt URL — one fresh network read per processed
URL.  There is no per-origin cache, so an origin is re-read for every one
of its URLs and the total number of reads equals the number of processed
URLs, which can exceed the number of distinct origins encountered (see the
counterexample). -/
theorem robots_read_once_per_visited (w : World) (cfg : Config) (seed : String)
    (s : CrawlState) (hir : cfg.ignoreRobots = false)
    (h : Reachable w cfg (initState seed) s) :
    s.robotsLog = s.visited.map robotsUrlOf := by
  induction h with
  | refl => simp [initState]
  | @skip t t' hr hs ih =>
    obtain ⟨url0, rest, heq, rfl⟩ := step_skip_inv hs
    exact ih
  | @proc t t' hr hs ih =>
    obtain ⟨url0, rest, heq, hlt, hne, hnv, hcases⟩ := step_proc_inv hs
    rcases hcases with ⟨hig, rfl⟩ | ⟨_, _, rfl⟩
    · rw [hig] at hir
      exact absurd hir (by simp)
    · obtain ⟨hv, _, hrob, _, _⟩ := processUrl_spec w cfg
        { t with robotsLog := t.robotsLog ++ [robotsUrlOf (normalize_url url0)] }
        (normalize_url url0) rest
      rw [hv, hrob]
      simp only [List.map_append, List.map_cons, List.map_nil]
      rw [ih]

/-! ### C9: the link-to-word ratio uses pre-dedup link totals -/

/-- C9: for every successfully fetched page (HTTP status < 400), the crawl
appends exactly one success row, and that row's link-to-word ratio equals
the specification's formula — the pre-deduplication total of internal plus
external link occurrences divided by the word count, rounded to 3 decimals,
and 0 whenever the word count is 0 — even though the row's stored internal
and external link counts are the deduplicated ones. -/
theorem link_to_word_ratio_matches_spec (w : World) (cfg : Config) (s : CrawlState)
    (url : String) (rest : List String) (status : ℕ) (doc : Doc)
    (hf : w.fetch url = .resp status doc) (hst : status < 400) :
    (processUrl w cfg s url rest).rows = s.rows ++
      [successRow url status doc (classifyLinks w.join url cfg.seedDomain doc.anchors).1
        (classifyLinks w.join url cfg.seedDomain doc.anchors).2] ∧
    ∀ (internal external : List String),
      (successRow url status doc internal external).linkToWordRatio =
        specLinkToWordRatio (internal.length + external.length) doc.wordCount ∧
      (successRow url status doc internal external).internalLinks = internal.dedup.length ∧
      (successRow url status doc internal external).externalLinks = external.dedup.length := by
  constructor
  · simp only [processUrl, hf]
    rw [if_neg (by omega)]
  · intro internal external
    exact ⟨rfl, rfl, rfl⟩

/-! ### Concrete step evaluations shared by witnesses and counterexamples -/

theorem stepA0_eval : step worldA cfgA (initState "http://a.com") = .proc stateA1 := by
  decide

theorem stepA1_eval : step worldA cfgA stateA1 = .proc stateA2 := by
  decide

theorem stepSelf0_eval : step worldSelf cfgSelf (initState "http://s.com") = .proc stateSelf1 := by
  decide

theorem reachableA1 : Reachable worldA cfgA (initState "http://a.com") stateA1 :=
  Reachable.proc Reachable.refl stepA0_eval

theorem reachableA2 : Reachable worldA cfgA (initState "http://a.com") stateA2 :=
  Reachable.proc reachableA1 stepA1_eval

/-! ### C4 counterexample: a self-link puts a URL in the queue and the visited set at once -/

/-- C4 as stated is false: in `worldSelf`, whose seed page links to itself,
after the first processed URL the crawl reaches a state (`stateSelf1`) in
which the seed URL `http://s.com` is simultaneously in the frontier queue
and in the visited set — the enqueueing happens before `visited.add(url)`. -/
theorem crawl_queue_visited_overlap_cex :
    Reachable worldSelf cfgSelf (initState "http://s.com") stateSelf1 ∧
    "http://s.com" ∈ stateSelf1.toVisit ∧ "http://s.com" ∈ stateSelf1.visited :=
  ⟨Reachable.proc Reachable.refl stepSelf0_eval, by decide, by decide⟩

/-! ### C5 counterexample: the same origin's robots.txt is read twice -/

/-- C5 as stated is false: in `worldA` the crawl processes two URLs of the
single origin `http://a.com` and performs two robots.txt reads of that one
origin — the robots log holds the same robots.txt URL twice, so the number
of reads (2) exceeds the number of distinct origins encountered (1). -/
theorem robots_refetch_same_origin_cex :
    Reachable worldA cfgA (initState "http://a.com") stateA2 ∧
    stateA2.robotsLog = ["http://a.com/robots.txt", "http://a.com/robots.txt"] ∧
    stateA2.robotsLog.length = 2 ∧ stateA2.robotsLog.dedup.length = 1 :=
  ⟨reachableA2, by decide, by decide, by decide⟩

/-! ### Witnesses -/

/-- Witness for C1: in `worldB`, from a mid-crawl state with one
accumulated row, hitting the robots-blocked URL `http://b.com/x` makes the
loop return the empty table with `blocked = true` and the blocking origin's
robots.txt URL, discarding the accumulated row. -/
theorem crawl_blocked_aborts_with_empty_rows_witness :
    stateB.rows ≠ [] ∧
    crawlLoop worldB cfgB stateB =
      { rows := [], blocked := true, robotsUrl := some "http://b.com/robots.txt" } := by
  refine ⟨by decide, ?_⟩
  have h := crawl_blocked_aborts_with_empty_rows worldB cfgB stateB "http://b.com/x" []
    rfl (by decide) (by decide) (by decide) rfl (by decide)
  rw [h]
  decide

/-- Witness for C2 at the concrete reachable state `stateA1` of `worldA`. -/
theorem crawl_fetch_once_row_once_witness :
    stateA1.fetchLog = stateA1.visited ∧ stateA1.rows.map Row.url = stateA1.visited ∧
    stateA1.visited.Nodup ∧ stateA1.fetchLog.count "http://a.com" ≤ 1 := by
  have h := crawl_fetch_once_row_once worldA cfgA "http://a.com" stateA1 reachableA1
  exact ⟨h.1, h.2.1, h.2.2.1, (h.2.2.2 "http://a.com").1⟩

/-- Witness for C3 at the concrete reachable state `stateA2` of `worldA`. -/
theorem crawl_visited_le_maxPages_witness :
    1 ≤ cfgA.maxPages ∧ stateA2.visited.length ≤ cfgA.maxPages :=
  ⟨by decide, crawl_visited_le_maxPages worldA cfgA "http://a.com" stateA2 (by decide) reachableA2⟩

/-- Witness for the amended C4 at the concrete reachable state `stateA1`:
the enqueued link is a normalized same-domain http URL, the queue is
duplicate-free, and the fetched URL has the seed's network location. -/
theorem crawl_frontier_same_domain_nodup_witness :
    ("http://a.com/p" = rstripSlash "http://a.com" ∨
      (netlocOf "http://a.com/p" = cfgA.seedDomain ∧
        (schemeOf "http://a.com/p" = "http" ∨ schemeOf "http://a.com/p" = "https") ∧
        normalize_url "http://a.com/p" = "http://a.com/p")) ∧
    stateA1.toVisit.Nodup ∧
    ("http://a.com" = normalize_url (rstripSlash "http://a.com") ∨
      netlocOf "http://a.com" = cfgA.seedDomain) := by
  have h := crawl_frontier_same_domain_nodup worldA cfgA "http://a.com" stateA1 reachableA1
  exact ⟨h.1 "http://a.com/p" (by decide), h.2.1, h.2.2 "http://a.com" (by decide)⟩

/-- Witness for the amended C5 at the concrete reachable state `stateA2`:
the robots log is exactly the visited list mapped to robots.txt URLs. -/
theorem robots_read_once_per_visited_witness :
    stateA2.robotsLog = stateA2.visited.map robotsUrlOf :=
  robots_read_once_per_visited worldA cfgA "http://a.com" stateA2 rfl reachableA2

/-- Witness for the amended C6 on the spec's own scenario list
`["seo","seo","tool","tool","tool","guide"]` with `top_n = 3`. -/
theorem freq_table_percentages_witness :
    ((analyze_keyword_frequency ["seo", "seo", "tool", "tool", "tool", "guide"] 3).map
      (fun r => (r.frequency : ℚ) /
        (["seo", "seo", "tool", "tool", "tool", "guide"] : List String).length * 100)).sum
      ≤ 100 ∧
    (["seo", "seo", "tool", "tool", "tool", "guide"] : List String).dedup.length ≤ 3 ∧
    ((analyze_keyword_frequency ["seo", "seo", "tool", "tool", "tool", "guide"] 3).map
      (fun r => (r.frequency : ℚ) /
        (["seo", "seo", "tool", "tool", "tool", "guide"] : List String).length * 100)).sum
      = 100 := by
  have h := freq_table_percentages ["seo", "seo", "tool", "tool", "tool", "guide"] 3 (by decide)
  exact ⟨h.2.1, by decide, h.2.2 (by decide)⟩

/-- Evaluation of the clusterer on `["aa", "a"]` with the default threshold:
one cluster led by `"a"` containing both keywords. -/
theorem clusterEvalAA : cluster_related_keywords ["aa", "a"] (1/2) = [("a", ["a", "aa"])] := by
  have hsorted : List.insertionSort (α := String) (· ≤ ·) ["aa", "a"] = ["a", "aa"] := by
    simp +decide [List.insertionSort, List.orderedInsert]
  have h1 : jaccardSim "a" "aa" = 1 := by
    have hn : ((charSet "a").filter (fun c => c ∈ charSet "aa")).length = 1 := by decide
    have hd : (("a".data ++ "aa".data).dedup).length = 1 := by decide
    unfold jaccardSim
    rw [hn, hd]
    norm_num
  rw [cluster_related_keywords, if_neg (by decide), hsorted]
  simp +decide [clusterOuter, gatherCluster, h1]
  norm_num

/-- Evaluation of the clusterer on the spec's own scenario
`["cat", "cats", "dog"]`: `cat` and `cats` cluster (similarity 3/4), `dog`
does not, and the singleton `dog` cluster is dropped. -/
theorem clusterEvalCats :
    cluster_related_keywords ["cat", "cats", "dog"] (1/2) = [("cat", ["cat", "cats"])] := by
  have hsorted : List.insertionSort (α := String) (· ≤ ·) ["cat", "cats", "dog"] =
      ["cat", "cats", "dog"] := by
    simp +decide [List.insertionSort, List.orderedInsert]
  have h1 : jaccardSim "cat" "cats" = 3/4 := by
    have hn : ((charSet "cat").filter (fun c => c ∈ charSet "cats")).length = 3 := by decide
    have hd : (("cat".data ++ "cats".data).dedup).length = 4 := by decide
    unfold jaccardSim
    rw [hn, hd]
    norm_num
  have h2 : jaccardSim "cat" "dog" = 0 := by
    have hn : ((charSet "cat").filter (fun c => c ∈ charSet "dog")).length = 0 := by decide
    unfold jaccardSim
    rw [hn]
    norm_num
  rw [cluster_related_keywords, if_neg (by decide), hsorted]
  simp +decide [clusterOuter, gatherCluster, h1, h2]
  norm_num

/-- Witness for C8 on the concrete clustering of `["aa", "a"]`. -/
theorem cluster_disjoint_and_min_size_witness :
    2 ≤ (("a", ["a", "aa"]) : String × List String).2.length ∧
    (("a", ["a", "aa"]) : String × List String).2.Nodup := by
  have hmem : (("a", ["a", "aa"]) : String × List String) ∈
      cluster_related_keywords ["aa", "a"] (1/2) := by
    rw [clusterEvalAA]
    exact List.mem_singleton.mpr rfl
  exact (cluster_disjoint_and_min_size ["aa", "a"] (1/2)).1 _ hmem

/-- Witness for C10 on the concrete clustering of `["cat", "cats", "dog"]`:
the leader `cat` is a member of its cluster and precedes `cats`. -/
theorem cluster_leader_lex_min_witness :
    (("cat", ["cat", "cats"]) : String × List String).1 ∈
      (("cat", ["cat", "cats"]) : String × List String).2 ∧
    ("cat" : String) ≤ "cats" := by
  have hmem : (("cat", ["cat", "cats"]) : String × List String) ∈
      cluster_related_keywords ["cat", "cats", "dog"] (1/2) := by
    rw [clusterEvalCats]
    exact List.mem_singleton.mpr rfl
  have h := cluster_leader_lex_min ["cat", "cats", "dog"] (1/2) _ hmem
  exact ⟨h.1, h.2 "cats" (by decide)⟩

/-- Witness for C9 in `worldC`: the seed page has links
`[c.com/1, c.com/1, x.org/e]` (pre-dedup internal+external total 3) and 8
words; the recorded ratio is `round(3/8, 3) = 0.375` while the stored
internal link count is the deduplicated 1. -/
theorem link_to_word_ratio_matches_spec_witness :
    (processUrl worldC cfgC (initState "http://c.com") "http://c.com" []).rows =
      (initState "http://c.com").rows ++
      [successRow "http://c.com" 200 docC
        (classifyLinks worldC.join "http://c.com" cfgC.seedDomain docC.anchors).1
        (classifyLinks worldC.join "http://c.com" cfgC.seedDomain docC.anchors).2] ∧
    (successRow "http://c.com" 200 docC ["http://c.com/1", "http://c.com/1"]
      ["http://x.org/e"]).linkToWordRatio = specLinkToWordRatio 3 8 ∧
    (successRow "http://c.com" 200 docC ["http://c.com/1", "http://c.com/1"]
      ["http://x.org/e"]).internalLinks = 1 ∧
    specLinkToWordRatio 3 8 = 3/8 := by
  have h := link_to_word_ratio_matches_spec worldC cfgC (initState "http://c.com")
    "http://c.com" [] 200 docC rfl (by omega)
  have h2 := h.2 ["http://c.com/1", "http://c.com/1"] ["http://x.org/e"]
  refine ⟨h.1, by simpa using h2.1, by rw [h2.2.1]; decide, ?_⟩
  unfold specLinkToWordRatio round3 roundHalfEven
  norm_num

end Seo
